import Mathlib

/-!
Verification of the ASCII-tree project scaffolder (`make_project.py`).

The development shallowly embeds the two components of the program:

* the tree parser `ProjectTreeParser.parse`, modelled as a fold over the
  comment-stripped, art-filtered lines of the input, building a heap of
  node records (`NodeRec`) together with a level-indexed stack, exactly
  mirroring the Python object graph (including its aliasing behaviour on
  duplicate siblings);
* the materializer `FileSystemCreator`, modelled as a traversal over the
  extracted tree that threads counters, an action log, and an
  association-list filesystem.

Names follow the Python source where Lean permits it.
-/

namespace MakeProject

/-! ### Character and line helpers (Python string primitives) -/

/-- Characters matched by the class of the pure-art regex
`^[\s│├└─]+$` and by the leading-glyph strip `^[\s│├└─]+`. -/
def isArtChar (c : Char) : Bool :=
  c.isWhitespace || c = '│' || c = '├' || c = '└' || c = '─'

/-- Python `str.lstrip()` on a character list. -/
def lstripWs (cs : List Char) : List Char :=
  cs.dropWhile Char.isWhitespace

/-- Python `str.rstrip()` on a character list. -/
def rstripWs (cs : List Char) : List Char :=
  (cs.reverse.dropWhile Char.isWhitespace).reverse

/-- Python `str.strip()` on a character list. -/
def stripWs (cs : List Char) : List Char :=
  rstripWs (lstripWs cs)

/-- Python `str.rstrip(set)`: drop trailing characters belonging to `set`. -/
def rstripSet (set : List Char) (cs : List Char) : List Char :=
  (cs.reverse.dropWhile (fun c => set.contains c)).reverse

/-- Index of the first character satisfying `p`, as Python `str.find`
restricted to the found case. -/
def firstIdx (p : Char → Bool) : List Char → Option Nat
  | [] => none
  | c :: rest => if p c then some 0 else (firstIdx p rest).map (fun i => i + 1)

/-- Split a character list on a separator character, Python `str.split(sep)`. -/
def splitOnChar (sep : Char) : List Char → List (List Char)
  | [] => [[]]
  | c :: rest =>
    match splitOnChar sep rest with
    | [] => [[]]
    | r :: rs => if c = sep then [] :: r :: rs else (c :: r) :: rs

/-! ### Per-line computations of `ProjectTreeParser.parse` -/

/-- The `cuts` computation: the smallest index at which one of the branch
glyphs appears, when at least one is present
(`min` of `txt.find` for the glyphs found by containment tests). -/
def cutInfo (txt : List Char) : Option Nat :=
  match firstIdx (fun c => c = '├') txt, firstIdx (fun c => c = '└') txt with
  | some a, some b => some (min a b)
  | some a, none => some a
  | none, some b => some b
  | none, none => none

/-- Count of leading space characters,
`len(txt) - len(txt.lstrip(' '))`. -/
def leadingSpaces (txt : List Char) : Nat :=
  (txt.takeWhile (fun c => c = ' ')).length

/-- The `cut_idx` of a line: position of the first branch glyph when one is
present, otherwise the count of leading spaces. -/
def cutIdxOf (txt : List Char) : Nat :=
  match cutInfo txt with
  | some i => i
  | none => leadingSpaces txt

/-- The level of a line, `cut_idx // self.indent_width`. -/
def levelOf (txt : List Char) (w : Nat) : Nat :=
  cutIdxOf txt / w

/-- The directory flag of a line, `txt.strip().endswith('/')`. -/
def endsSlash (txt : List Char) : Bool :=
  (stripWs txt).getLast? = some '/'

/-- Name extraction: `re.sub(r'^[\s│├└─]+', '', txt).strip()` followed by
removal of one trailing path separator. -/
def namesRaw (txt : List Char) : List Char :=
  let s := stripWs (txt.dropWhile isArtChar)
  if s.getLast? = some '/' then s.dropLast else s

/-- Segmentation: `[p.strip() for p in names_raw.split('/') if p.strip()]`. -/
def partsOf (txt : List Char) : List String :=
  (((splitOnChar '/' (namesRaw txt)).map stripWs).filter
    (fun p => ¬ p.isEmpty)).map (fun p => String.mk p)

/-- Presence of a dotted suffix in a final path segment, following the
implementation of `pathlib.PurePath.suffix`: the last dot must be neither
the first nor the last character of the name. -/
def hasSuffix (name : String) : Bool :=
  match firstIdx (fun c => c = '.') name.data.reverse with
  | some j =>
    let i := name.data.length - 1 - j
    decide (0 < i) && decide (i < name.data.length - 1)
  | none => false

/-! ### Node heap -/

/-- One Python `Node` object: `name`, the kind tag distinguishing
`DirectoryNode` from `FileNode`, the non-owning `parent` back-reference, and
the `children` identifier list (meaningful only for directories). -/
structure NodeRec where
  name : String
  isDir : Bool
  parent : Option Nat
  children : List Nat
deriving DecidableEq, Repr

/-- Read a node record from the heap (out-of-range reads yield an inert
default; the parser never performs them). -/
def getNode (nodes : List NodeRec) (i : Nat) : NodeRec :=
  nodes.getD i ⟨"", false, none, []⟩

/-- Names of the children of node `pid`. -/
def childNames (nodes : List NodeRec) (pid : Nat) : List String :=
  (getNode nodes pid).children.map (fun c => (getNode nodes c).name)

/-- Model of `DirectoryNode.add_child` at the heap level: the child identifier is
appended to the parent's child list unless a child of the same name is
already present, in which case the heap is left unchanged. -/
def attachChild (nodes : List NodeRec) (pid cid : Nat) : List NodeRec :=
  if (childNames nodes pid).contains (getNode nodes cid).name then nodes
  else
    let p := getNode nodes pid
    nodes.set pid ⟨p.name, p.isDir, p.parent, p.children ++ [cid]⟩

/-! ### The parser -/

/-- Structured rendering of the `ParseError` messages raised by `parse`:
empty input, all-art input, empty root name (with its line number), and
over-deep indentation (with line number, attempted level, and the maximum
permitted level `len(stack) - 1`). -/
inductive ParseErr where
  | empty
  | noEntries
  | emptyRoot (lineno : Nat)
  | tooDeep (lineno level maxLevel : Nat)
deriving DecidableEq, Repr

/-- State of the segment loop: the heap, the level-indexed stack
(head = top), and the parent cursor. -/
structure SegState where
  nodes : List NodeRec
  stack : List Nat
  parent : Nat
deriving DecidableEq, Repr

/-- The class decision for one segment: intermediate segments are
directories; the final segment is a directory when the line carried a
trailing separator, and otherwise a file whether or not it has a dotted
suffix. -/
def segClass (last isdir : Bool) (name : String) : Bool :=
  if ¬ last then true
  else if isdir then true
  else if hasSuffix name then false
  else false

/-- One iteration of the segment loop: the node object is created, its
attachment is attempted, and when it is a directory the parent cursor
advances to it and it is pushed onto the stack, whether or not the
attachment was suppressed as a duplicate. -/
def segStep (isdir last : Bool) (name : String) (s : SegState) : SegState :=
  let cls := segClass last isdir name
  let newId := s.nodes.length
  let nodes1 := s.nodes ++ [⟨name, cls, some s.parent, []⟩]
  let nodes2 := attachChild nodes1 s.parent newId
  if cls then ⟨nodes2, newId :: s.stack, newId⟩ else ⟨nodes2, s.stack, s.parent⟩

/-- The segment loop over the inline path segments of one line. -/
def segLoop (isdir : Bool) (s : SegState) : List String → SegState
  | [] => s
  | name :: rest => segLoop isdir (segStep isdir rest.isEmpty name s) rest

/-- Parser state between lines. -/
structure PState where
  nodes : List NodeRec
  stack : List Nat
deriving DecidableEq, Repr

/-- Processing of one post-root line: level detection, directory flag,
name extraction (skipping lines whose extracted name or segment list is
empty), level validation, parent resolution by popping the stack, and the
segment loop. -/
def lineStep (w : Nat) (st : PState) (ln : Nat × List Char) : Except ParseErr PState :=
  let lineno := ln.1
  let txt := ln.2
  let level := levelOf txt w
  let isdir := endsSlash txt
  if (namesRaw txt).isEmpty then .ok st
  else
    let parts := partsOf txt
    if parts.isEmpty then .ok st
    else if st.stack.length < level + 1 then
      .error (.tooDeep lineno level (st.stack.length - 1))
    else
      let stack1 := st.stack.drop (st.stack.length - (level + 1))
      let s := segLoop isdir ⟨st.nodes, stack1, stack1.headD 0⟩ parts
      .ok ⟨s.nodes, s.stack⟩

/-- Left-to-right processing of the post-root lines, stopping at the first
parse error. -/
def linesFold (w : Nat) (st : PState) : List (Nat × List Char) → Except ParseErr PState
  | [] => .ok st
  | l :: rest =>
    match lineStep w st l with
    | .error e => .error e
    | .ok st1 => linesFold w st1 rest

/-- Comment stripping of one raw line,
`orig.split('#', 1)[0].rstrip()`. -/
def lineTxt (orig : List Char) : List Char :=
  rstripWs (orig.takeWhile (fun c => c ≠ '#'))

/-- The numbered, comment-stripped lines whose text is non-blank. -/
def keptLines (raw : String) : List (Nat × List Char) :=
  (((splitOnChar '\n' raw.data).enum).map
      (fun p => (p.1 + 1, lineTxt p.2))).filter
    (fun p => ¬ (stripWs p.2).isEmpty)

/-- The pure-art test `^[\s│├└─]+$`. -/
def isPureArt (txt : List Char) : Bool :=
  ¬ txt.isEmpty && txt.all isArtChar

/-- The surviving lines after the pure-art filter. -/
def filteredLines (raw : String) : List (Nat × List Char) :=
  (keptLines raw).filter (fun p => ¬ isPureArt p.2)

/-- Model of `ProjectTreeParser.parse`: the first surviving line becomes the root
directory (its name trimmed of trailing separators and whitespace), and the
remaining lines are folded through `lineStep`.  The result is the final
parser state; the root is node `0` of the heap. -/
def parse (w : Nat) (raw : String) : Except ParseErr PState :=
  match keptLines raw with
  | [] => .error .empty
  | _ :: _ =>
    match filteredLines raw with
    | [] => .error .noEntries
    | (rlineno, rtxt) :: rest =>
      let rootName := stripWs (rstripSet ['/', ' '] rtxt)
      if rootName.isEmpty then .error (.emptyRoot rlineno)
      else linesFold w ⟨[⟨String.mk rootName, true, none, []⟩], [0]⟩ rest

/-! ### Extracted trees and reachability -/

-- The tree shape of a node, as the materializer consumes it, together
-- with the forests of sibling nodes.
mutual
inductive PNode where
  | dir (name : String) (children : PForest)
  | file (name : String)
inductive PForest where
  | nil
  | cons (head : PNode) (tail : PForest)
end

/-- A forest from a list of trees. -/
def ofList : List PNode → PForest
  | [] => .nil
  | n :: rest => .cons n (ofList rest)

/-- Extraction of the tree reachable from heap node `i` (the fuel argument
only bounds the recursion depth; the heap size always suffices because
child identifiers strictly exceed their parent's). -/
def toNode (nodes : List NodeRec) : Nat → Nat → PNode
  | 0, i => .file (getNode nodes i).name
  | fuel + 1, i =>
    let r := getNode nodes i
    if r.isDir then .dir r.name (ofList (r.children.map (toNode nodes fuel)))
    else .file r.name

/-- Identifiers reachable from heap node `i` within `fuel` steps. -/
def reachIds (nodes : List NodeRec) : Nat → Nat → List Nat
  | 0, _ => []
  | fuel + 1, i => i :: (getNode nodes i).children.flatMap (reachIds nodes fuel)

/-- The parsed tree of an input, when parsing succeeds. -/
def parsedTree (w : Nat) (raw : String) : Option PNode :=
  match parse w raw with
  | .ok st => some (toNode st.nodes st.nodes.length 0)
  | .error _ => none

/-! ### The materializer (`FileSystemCreator`) -/

/-- A filesystem entry: a directory, or a file with its content. -/
inductive Entry where
  | dir
  | file (content : String)
deriving DecidableEq, Repr

/-- The filesystem, as an association list from segment paths to entries
(new entries are appended, so lookups find the original entry). -/
abbrev FsT := List (List String × Entry)

/-- Lookup of a path in the filesystem. -/
def lookupFs : FsT → List String → Option Entry
  | [], _ => none
  | (q, e) :: rest, p => if q = p then some e else lookupFs rest p

/-- All non-empty prefixes of a path, shortest first. -/
def prefixesOf (p : List String) : List (List String) :=
  (List.range p.length).map (fun i => p.take (i + 1))

/-- Creation of a chain of directories, failing (as `Path.mkdir` with
`exist_ok=True` does) when a path in the chain already exists as a file. -/
def ensureDirs (fs : FsT) : List (List String) → Option FsT
  | [] => some fs
  | q :: rest =>
    match lookupFs fs q with
    | none => ensureDirs (fs ++ [(q, Entry.dir)]) rest
    | some Entry.dir => ensureDirs fs rest
    | some (Entry.file _) => none

/-- Model of `path.mkdir(parents=True, exist_ok=True)`. -/
def mkdirParents (fs : FsT) (p : List String) : Option FsT :=
  ensureDirs fs (prefixesOf p)

/-- Model of `path.touch(exist_ok=True)`: it creates an empty file when the path is
absent and leaves any existing entry (file or directory) untouched. -/
def touchFs (fs : FsT) (p : List String) : FsT :=
  match lookupFs fs p with
  | none => fs ++ [(p, Entry.file "")]
  | some _ => fs

/-- Model of `path.write_text(content)` as wrapped by `_create_file`: writing over a
directory raises and is caught (leaving the filesystem unchanged);
otherwise the file is created or its content replaced. -/
def writeFs (fs : FsT) (p : List String) (c : String) : FsT :=
  match lookupFs fs p with
  | some Entry.dir => fs
  | some (Entry.file _) => fs.map (fun q => if q.1 = p then (p, Entry.file c) else q)
  | none => fs ++ [(p, Entry.file c)]

/-- One logged creation action (`mkdir` for `_create_dir`,
`touch` for `_create_file`), recording the node's filesystem path. -/
inductive Action where
  | mkdirA (path : List String)
  | touchA (path : List String)
deriving DecidableEq, Repr

/-- The mutable state of a `FileSystemCreator` run: the filesystem, the
three counters, and the log of creation actions in emission order. -/
structure MState where
  fs : FsT
  dirsCreated : Nat
  filesCreated : Nat
  skipped : Nat
  actions : List Action
deriving DecidableEq, Repr

/-- The policy configuration of a `FileSystemCreator`: dry-run flag,
confirmation flag, template-content provider keyed by file name, and the
exclusion patterns (each modelled as the predicate `pat.search`). -/
structure Creator where
  dryRun : Bool
  confirm : Bool
  tpl : String → Option String
  excl : List (String → Bool)

/-- Why a run terminated abnormally: the two confirmation-gate exits
(`sys.exit(1)` on interrupted input and on a non-affirmative answer), or an
uncaught filesystem error during traversal. -/
inductive RunErr where
  | cancelled
  | aborted
  | fsError
deriving DecidableEq, Repr

/-- Model of `FileSystemCreator._matches_exclude` applied to the rendered
root-relative path. -/
def matchesExclude (excl : List (String → Bool)) (rel : List String) : Bool :=
  excl.any (fun pat => pat (String.intercalate "/" rel))

/-- Model of `FileSystemCreator._create_dir`: an excluded path only bumps the skip
counter; otherwise a dry run logs the intended `mkdir` and a real run
performs it, each bumping the directory counter. -/
def createDir (cfg : Creator) (st : MState) (path rel : List String) :
    Except (RunErr × MState) MState :=
  if matchesExclude cfg.excl rel then
    .ok ⟨st.fs, st.dirsCreated, st.filesCreated, st.skipped + 1, st.actions⟩
  else if cfg.dryRun then
    .ok ⟨st.fs, st.dirsCreated + 1, st.filesCreated, st.skipped,
         st.actions ++ [Action.mkdirA path]⟩
  else
    match mkdirParents st.fs path with
    | none => .error (RunErr.fsError, st)
    | some fs1 =>
      .ok ⟨fs1, st.dirsCreated + 1, st.filesCreated, st.skipped,
           st.actions ++ [Action.mkdirA path]⟩

/-- Model of `FileSystemCreator._create_file`: an excluded path only bumps the skip
counter; otherwise the template content is looked up by file name, and a
dry run logs the intended `touch` while a real run ensures the parent
directory, then writes the template content or touches the file, each
bumping the file counter. -/
def createFile (cfg : Creator) (st : MState) (path rel : List String) :
    Except (RunErr × MState) MState :=
  if matchesExclude cfg.excl rel then
    .ok ⟨st.fs, st.dirsCreated, st.filesCreated, st.skipped + 1, st.actions⟩
  else
    let content := match path.getLast? with
      | some nm => cfg.tpl nm
      | none => none
    if cfg.dryRun then
      .ok ⟨st.fs, st.dirsCreated, st.filesCreated + 1, st.skipped,
           st.actions ++ [Action.touchA path]⟩
    else
      match mkdirParents st.fs path.dropLast with
      | none => .error (RunErr.fsError, st)
      | some fs1 =>
        match content with
        | some c =>
          .ok ⟨writeFs fs1 path c, st.dirsCreated, st.filesCreated + 1,
               st.skipped, st.actions ++ [Action.touchA path]⟩
        | none =>
          .ok ⟨touchFs fs1 path, st.dirsCreated, st.filesCreated + 1,
               st.skipped, st.actions ++ [Action.touchA path]⟩

-- The depth-first pre-order traversal of `execute.recurse`: a directory
-- performs its own creation action and then visits each child in order at
-- the path computed beneath it; a file performs its creation action.
mutual
def recurseNode (cfg : Creator) :
    PNode → List String → List String → MState → Except (RunErr × MState) MState
  | PNode.file name, base, rel, st => createFile cfg st (base ++ [name]) (rel ++ [name])
  | PNode.dir name cs, base, rel, st =>
    match createDir cfg st (base ++ [name]) (rel ++ [name]) with
    | .error e => .error e
    | .ok st1 => recChildren cfg cs (base ++ [name]) (rel ++ [name]) st1
def recChildren (cfg : Creator) :
    PForest → List String → List String → MState → Except (RunErr × MState) MState
  | PForest.nil, _, _, st => .ok st
  | PForest.cons c rest, base, rel, st =>
    match recurseNode cfg c base rel st with
    | .error e => .error e
    | .ok st1 => recChildren cfg rest base rel st1
end

/-- Normalization of the confirmation answer, `ans.strip().lower()`. -/
def normAns (s : String) : String :=
  String.mk ((stripWs s.data).map Char.toLower)

/-- Model of `FileSystemCreator.execute`: when confirmation is required and the run
is not a dry run, one answer is read before any mutation — absent input
cancels and a non-affirmative answer aborts, both leaving the state
untouched and exiting non-zero; otherwise the traversal runs from the
root with base path `Path('.')` and relative base `Path('')`. -/
def executeM (cfg : Creator) (resp : Option String) (root : PNode) (st0 : MState) :
    Except (RunErr × MState) MState :=
  if cfg.confirm && !cfg.dryRun then
    match resp with
    | none => .error (RunErr.cancelled, st0)
    | some s =>
      if normAns s = "y" then recurseNode cfg root [] [] st0
      else .error (RunErr.aborted, st0)
  else recurseNode cfg root [] [] st0

/-- The process exit status of a run: `0` on success, `1` on any
cancellation, abort, or error. -/
def exitCodeOf (r : Except (RunErr × MState) MState) : Nat :=
  match r with
  | .ok _ => 0
  | .error _ => 1

/-- The outcome of the whole pipeline of `main`: a parse error stops the
program before the creator runs (with the filesystem untouched), otherwise
the materializer's outcome stands. -/
inductive PipeResult where
  | parseError (e : ParseErr) (fs : FsT)
  | runResult (r : Except (RunErr × MState) MState)

/-- The pipeline of `main`: parse, then materialize the parsed root. -/
def pipeline (w : Nat) (cfg : Creator) (resp : Option String) (st0 : MState)
    (raw : String) : PipeResult :=
  match parse w raw with
  | .error e => .parseError e st0.fs
  | .ok ps => .runResult (executeM cfg resp (toNode ps.nodes ps.nodes.length 0) st0)

/-! ### Spec-side definitions, used only to compare the code against the
claims' wording -/

/-- Modelled from the words of claim C2 (not from the source): when the
line contains a branch glyph, the level is the count of
vertical-continuation glyphs in the prefix before the cut; when it does
not, the level is the count of leading whitespace characters divided by
the indent width. -/
def specLevelC2 (txt : List Char) (w : Nat) : Nat :=
  match cutInfo txt with
  | some i => ((txt.take i).filter (fun c => c = '│')).length
  | none => (txt.takeWhile Char.isWhitespace).length / w

/-- Modelled from the amended wording of claim C2: the cut index is the
position of the first branch glyph when one is present, and otherwise the
count of leading space characters. -/
def amendedCutIdx (txt : List Char) : Nat :=
  match firstIdx (fun c => c = '├' || c = '└') txt with
  | some i => i
  | none => leadingSpaces txt

/-! ### Heap invariants -/

/-- Every child identifier stored in the heap points inside the heap. -/
def Bounded (nodes : List NodeRec) : Prop :=
  ∀ i, i < nodes.length → ∀ c ∈ (getNode nodes i).children, c < nodes.length

/-- Every node's children have pairwise-distinct names. -/
def NodupNames (nodes : List NodeRec) : Prop :=
  ∀ i, i < nodes.length → (childNames nodes i).Nodup

/-- The root record is a directory without a parent. -/
def Root0 (nodes : List NodeRec) : Prop :=
  (getNode nodes 0).isDir = true ∧ (getNode nodes 0).parent = none

/-- Well-formedness of a segment-loop state. -/
def SegOk (s : SegState) : Prop :=
  Bounded s.nodes ∧ NodupNames s.nodes ∧ (∀ j ∈ s.stack, j < s.nodes.length) ∧
  s.parent < s.nodes.length ∧ s.stack ≠ []

/-- Well-formedness of a parser state. -/
def PInv (st : PState) : Prop :=
  Bounded st.nodes ∧ NodupNames st.nodes ∧ (∀ j ∈ st.stack, j < st.nodes.length) ∧
  st.stack ≠ []

-- The per-node postcondition of a completed non-dry run without template
-- content: every creation the node (and its subtree) performs is already
-- satisfied by the filesystem, so re-running it changes nothing.  A node
-- is covered either because its path is excluded or because the
-- directories it ensures exist and the file it touches is present.
mutual
def doneNode (excl : List (String → Bool)) (fs : FsT) :
    PNode → List String → List String → Prop
  | PNode.file name, base, rel =>
    matchesExclude excl (rel ++ [name]) = true ∨
    ((∀ q ∈ prefixesOf base, lookupFs fs q = some Entry.dir) ∧
      lookupFs fs (base ++ [name]) ≠ none)
  | PNode.dir name cs, base, rel =>
    (matchesExclude excl (rel ++ [name]) = true ∨
      ∀ q ∈ prefixesOf (base ++ [name]), lookupFs fs q = some Entry.dir) ∧
    doneForest excl fs cs (base ++ [name]) (rel ++ [name])
def doneForest (excl : List (String → Bool)) (fs : FsT) :
    PForest → List String → List String → Prop
  | PForest.nil, _, _ => True
  | PForest.cons c rest, base, rel =>
    doneNode excl fs c base rel ∧ doneForest excl fs rest base rel
end

/-! ## Supporting lemmas -/

/-- Lookups that succeed are unaffected by appending entries. -/
lemma lookupFs_append (fs l : FsT) (p : List String) (e : Entry)
    (h : lookupFs fs p = some e) : lookupFs (fs ++ l) p = some e := by
  induction fs with
  | nil => simp [lookupFs] at h
  | cons a rest ih =>
    obtain ⟨q0, e0⟩ := a
    by_cases hq : q0 = p
    · simp only [lookupFs, List.cons_append, if_pos hq] at h ⊢
      exact h
    · simp only [lookupFs, List.cons_append, if_neg hq] at h ⊢
      exact ih h

/-- Looking up a freshly appended entry. -/
lemma lookupFs_append_self (fs : FsT) (p : List String) (e : Entry)
    (h : lookupFs fs p = none) : lookupFs (fs ++ [(p, e)]) p = some e := by
  induction fs with
  | nil => simp [lookupFs]
  | cons a rest ih =>
    obtain ⟨q0, e0⟩ := a
    by_cases hq : q0 = p
    · simp only [lookupFs, if_pos hq] at h
      exact absurd h (by simp)
    · simp only [lookupFs, List.cons_append, if_neg hq] at h ⊢
      exact ih h

/-- A `touch` preserves every successful lookup. -/
lemma touchFs_mono (fs : FsT) (p p0 : List String) (e : Entry)
    (h : lookupFs fs p0 = some e) : lookupFs (touchFs fs p) p0 = some e := by
  unfold touchFs
  split
  · exact lookupFs_append fs _ p0 e h
  · exact h

/-- After a `touch` the path is present. -/
lemma touchFs_self (fs : FsT) (p : List String) :
    lookupFs (touchFs fs p) p ≠ none := by
  unfold touchFs
  cases hl : lookupFs fs p with
  | none => rw [lookupFs_append_self fs p _ hl]; simp
  | some e => rw [hl]; simp

/-- A `touch` of a present path is a no-op. -/
lemma touchFs_noop (fs : FsT) (p : List String) (h : lookupFs fs p ≠ none) :
    touchFs fs p = fs := by
  unfold touchFs
  cases hl : lookupFs fs p with
  | none => exact absurd hl h
  | some e => rfl

/-- Directory creation preserves every successful lookup. -/
lemma ensureDirs_mono (qs : List (List String)) :
    ∀ fs fs' : FsT, ensureDirs fs qs = some fs' →
      ∀ p e, lookupFs fs p = some e → lookupFs fs' p = some e := by
  induction qs with
  | nil =>
    intro fs fs' h p e hp
    cases h
    exact hp
  | cons q rest ih =>
    intro fs fs' h p e hp
    unfold ensureDirs at h
    split at h
    · exact ih _ _ h p e (lookupFs_append fs _ p e hp)
    · exact ih _ _ h p e hp
    · exact absurd h (by simp)

/-- After directory creation every requested path is a directory. -/
lemma ensureDirs_establish (qs : List (List String)) :
    ∀ fs fs' : FsT, ensureDirs fs qs = some fs' →
      ∀ q ∈ qs, lookupFs fs' q = some Entry.dir := by
  induction qs with
  | nil =>
    intro fs fs' h q hq
    simp at hq
  | cons q0 rest ih =>
    intro fs fs' h q hq
    unfold ensureDirs at h
    rcases List.mem_cons.mp hq with hq0 | hqr
    · subst hq0
      split at h
      · rename_i hl
        exact ensureDirs_mono rest _ _ h q Entry.dir (lookupFs_append_self fs q _ hl)
      · rename_i hl
        exact ensureDirs_mono rest _ _ h q Entry.dir hl
      · exact absurd h (by simp)
    · split at h
      · exact ih _ _ h q hqr
      · exact ih _ _ h q hqr
      · exact absurd h (by simp)

/-- Directory creation over already-present directories is the identity. -/
lemma ensureDirs_noop (qs : List (List String)) :
    ∀ fs : FsT, (∀ q ∈ qs, lookupFs fs q = some Entry.dir) →
      ensureDirs fs qs = some fs := by
  induction qs with
  | nil =>
    intro fs h
    rfl
  | cons q rest ih =>
    intro fs h
    unfold ensureDirs
    rw [h q (by simp)]
    exact ih fs (fun q2 hq2 => h q2 (List.mem_cons_of_mem _ hq2))

/-- The default head of a non-empty list is a member. -/
lemma headD_mem {l : List Nat} (d : Nat) (h : l ≠ []) : l.headD d ∈ l := by
  cases l with
  | nil => exact absurd rfl h
  | cons a t => simp [List.headD]

/-- The minimum of the first positions of the two branch glyphs is the
first position at which either of them occurs. -/
lemma cutInfo_eq_firstIdx (txt : List Char) :
    cutInfo txt = firstIdx (fun c => c = '├' || c = '└') txt := by
  induction txt with
  | nil => rfl
  | cons c rest ih =>
    by_cases h1 : c = '├'
    · simp [cutInfo, firstIdx, h1]
      cases hf : firstIdx (fun c => c = '└') rest <;> simp [hf]
    · by_cases h2 : c = '└'
      · simp [cutInfo, firstIdx, h1, h2]
        cases hf : firstIdx (fun c => c = '├') rest <;> simp [hf]
      · simp only [cutInfo, firstIdx, h1, h2, if_false] at ih ⊢
        cases hp : firstIdx (fun c => c = '├') rest <;>
          cases hq : firstIdx (fun c => c = '└') rest <;>
            simp [hp, hq] at ih ⊢
        · rw [← ih]
          rfl
        · rw [← ih]
          rfl
        · rw [← ih]
          rfl
        · rw [← ih]
          simp only [Option.map_some', Option.some.injEq]
          omega

/-- If the extracted name of a line is empty, its segment list is empty. -/
lemma partsOf_eq_nil_of_namesRaw (txt : List Char) (h : namesRaw txt = []) :
    partsOf txt = [] := by
  simp [partsOf, h, splitOnChar, stripWs, lstripWs, rstripWs]

/-- Reading below the old length is unaffected by appending. -/
lemma getNode_append_lt (nodes l : List NodeRec) (i : Nat) (h : i < nodes.length) :
    getNode (nodes ++ l) i = getNode nodes i := by
  induction nodes generalizing i with
  | nil => simp at h
  | cons a rest ih =>
    cases i with
    | zero => rfl
    | succ j =>
      simp only [getNode, List.cons_append, List.getD_cons_succ] at ih ⊢
      exact ih j (Nat.lt_of_succ_lt_succ h)

/-- Reading the appended element. -/
lemma getNode_append_self (nodes : List NodeRec) (r : NodeRec) :
    getNode (nodes ++ [r]) nodes.length = r := by
  induction nodes with
  | nil => rfl
  | cons a rest ih =>
    simpa only [getNode, List.cons_append, List.length_cons, List.getD_cons_succ] using ih

/-- Reading an updated position. -/
lemma getNode_set_self (nodes : List NodeRec) (i : Nat) (r : NodeRec)
    (h : i < nodes.length) : getNode (nodes.set i r) i = r := by
  induction nodes generalizing i with
  | nil => simp at h
  | cons a rest ih =>
    cases i with
    | zero => rfl
    | succ j =>
      simp only [getNode, List.set_cons_succ, List.getD_cons_succ] at ih ⊢
      exact ih j (Nat.lt_of_succ_lt_succ h)

/-- Reading any other position after an update. -/
lemma getNode_set_ne (nodes : List NodeRec) (i j : Nat) (r : NodeRec)
    (h : j ≠ i) : getNode (nodes.set i r) j = getNode nodes j := by
  induction nodes generalizing i j with
  | nil => simp [getNode, List.set]
  | cons a rest ih =>
    cases i with
    | zero =>
      cases j with
      | zero => exact absurd rfl h
      | succ k => rfl
    | succ i2 =>
      cases j with
      | zero => rfl
      | succ k =>
        simp only [getNode, List.set_cons_succ, List.getD_cons_succ] at ih ⊢
        exact ih i2 k (fun hk => h (by rw [hk]))

/-- Appending nodes does not change the name, kind, or parent of an
existing node, and `attachChild` never changes them for any node. -/
lemma attachChild_fields (nodes : List NodeRec) (pid cid j : Nat) :
    (getNode (attachChild nodes pid cid) j).name = (getNode nodes j).name ∧
    (getNode (attachChild nodes pid cid) j).isDir = (getNode nodes j).isDir ∧
    (getNode (attachChild nodes pid cid) j).parent = (getNode nodes j).parent := by
  unfold attachChild
  split
  · exact ⟨rfl, rfl, rfl⟩
  · by_cases hj : j = pid
    · subst hj
      by_cases hlt : j < nodes.length
      · rw [getNode_set_self nodes j _ hlt]
        exact ⟨rfl, rfl, rfl⟩
      · rw [List.set_eq_of_length_le (Nat.le_of_not_lt hlt)]
        exact ⟨rfl, rfl, rfl⟩
    · rw [getNode_set_ne nodes pid j _ hj]
      exact ⟨rfl, rfl, rfl⟩

/-- An `attachChild` does not change the children of any other node. -/
lemma attachChild_children_ne (nodes : List NodeRec) (pid cid j : Nat) (hj : j ≠ pid) :
    (getNode (attachChild nodes pid cid) j).children = (getNode nodes j).children := by
  unfold attachChild
  split
  · rfl
  · rw [getNode_set_ne nodes pid j _ hj]

/-- An `attachChild` keeps the parent's children or appends exactly the new
identifier, the latter only when no child of the same name existed. -/
lemma attachChild_children_self (nodes : List NodeRec) (pid cid : Nat) :
    (getNode (attachChild nodes pid cid) pid).children = (getNode nodes pid).children ∨
    ((childNames nodes pid).contains (getNode nodes cid).name = false ∧
      (getNode (attachChild nodes pid cid) pid).children =
        (getNode nodes pid).children ++ [cid]) := by
  unfold attachChild
  split
  · exact Or.inl rfl
  · rename_i hc
    by_cases hlt : pid < nodes.length
    · rw [getNode_set_self nodes pid _ hlt]
      exact Or.inr ⟨Bool.eq_false_iff.mpr hc, rfl⟩
    · rw [List.set_eq_of_length_le (Nat.le_of_not_lt hlt)]
      exact Or.inl rfl

/-- An `attachChild` appends the child identifier when no sibling of the same
name exists and the parent lies inside the heap. -/
lemma attachChild_new (nodes : List NodeRec) (pid cid : Nat)
    (h : (childNames nodes pid).contains (getNode nodes cid).name = false)
    (hp : pid < nodes.length) :
    (getNode (attachChild nodes pid cid) pid).children =
      (getNode nodes pid).children ++ [cid] := by
  unfold attachChild
  rw [if_neg (by rw [h]; simp)]
  rw [getNode_set_self nodes pid _ hp]

/-- An `attachChild` returns an unchanged heap when a child of the same name
already exists. -/
lemma attachChild_dup (nodes : List NodeRec) (pid cid : Nat)
    (h : (childNames nodes pid).contains (getNode nodes cid).name = true) :
    attachChild nodes pid cid = nodes := by
  unfold attachChild
  rw [if_pos h]

/-- An `attachChild` preserves the heap length. -/
lemma attachChild_length (nodes : List NodeRec) (pid cid : Nat) :
    (attachChild nodes pid cid).length = nodes.length := by
  unfold attachChild
  split
  · rfl
  · exact List.length_set nodes pid _

/-- Child names of a node are unaffected when its children and the names
of those children are unaffected. -/
lemma childNames_congr (nodes nodes' : List NodeRec) (pid : Nat)
    (hch : (getNode nodes' pid).children = (getNode nodes pid).children)
    (hnm : ∀ c ∈ (getNode nodes pid).children,
      (getNode nodes' c).name = (getNode nodes c).name) :
    childNames nodes' pid = childNames nodes pid := by
  unfold childNames
  rw [hch]
  exact List.map_congr_left hnm

/-- Child names are unaffected by appending when the node and its children
lie inside the old heap. -/
lemma childNames_append (nodes l : List NodeRec) (pid : Nat)
    (hp : pid < nodes.length)
    (hb : ∀ c ∈ (getNode nodes pid).children, c < nodes.length) :
    childNames (nodes ++ l) pid = childNames nodes pid := by
  refine childNames_congr nodes (nodes ++ l) pid (by rw [getNode_append_lt _ _ _ hp]) ?_
  intro c hc
  rw [getNode_append_lt _ _ _ (hb c hc)]

/-- The heap produced by one segment step. -/
lemma segStep_nodes (isdir last : Bool) (name : String) (s : SegState) :
    (segStep isdir last name s).nodes =
      attachChild (s.nodes ++ [⟨name, segClass last isdir name, some s.parent, []⟩])
        s.parent s.nodes.length := by
  unfold segStep
  dsimp only
  split <;> rfl

/-- A segment step with a directory class pushes the new identifier and
advances the parent cursor to it. -/
lemma segStep_true (isdir last : Bool) (name : String) (s : SegState)
    (h : segClass last isdir name = true) :
    (segStep isdir last name s).stack = s.nodes.length :: s.stack ∧
    (segStep isdir last name s).parent = s.nodes.length := by
  unfold segStep
  dsimp only
  rw [h]
  exact ⟨rfl, rfl⟩

/-- A segment step with a file class leaves the stack and cursor alone. -/
lemma segStep_false (isdir last : Bool) (name : String) (s : SegState)
    (h : segClass last isdir name = false) :
    (segStep isdir last name s).stack = s.stack ∧
    (segStep isdir last name s).parent = s.parent := by
  unfold segStep
  dsimp only
  rw [h]
  exact ⟨rfl, rfl⟩

/-- Each segment step grows the heap by exactly one node. -/
lemma segStep_length (isdir last : Bool) (name : String) (s : SegState) :
    (segStep isdir last name s).nodes.length = s.nodes.length + 1 := by
  rw [segStep_nodes, attachChild_length]
  simp

/-- A segment step preserves the name, kind, and parent of every existing
node. -/
lemma segStep_fields (isdir last : Bool) (name : String) (s : SegState)
    (j : Nat) (hj : j < s.nodes.length) :
    (getNode (segStep isdir last name s).nodes j).name = (getNode s.nodes j).name ∧
    (getNode (segStep isdir last name s).nodes j).isDir = (getNode s.nodes j).isDir ∧
    (getNode (segStep isdir last name s).nodes j).parent = (getNode s.nodes j).parent := by
  rw [segStep_nodes]
  obtain ⟨h1, h2, h3⟩ :=
    attachChild_fields (s.nodes ++ [⟨name, segClass last isdir name, some s.parent, []⟩])
      s.parent s.nodes.length j
  rw [h1, h2, h3, getNode_append_lt _ _ _ hj]
  exact ⟨rfl, rfl, rfl⟩

/-- The node created by a segment step carries the segment name, the
computed class, and the current cursor as parent. -/
lemma segStep_newnode (isdir last : Bool) (name : String) (s : SegState) :
    (getNode (segStep isdir last name s).nodes s.nodes.length).name = name ∧
    (getNode (segStep isdir last name s).nodes s.nodes.length).isDir =
      segClass last isdir name ∧
    (getNode (segStep isdir last name s).nodes s.nodes.length).parent = some s.parent := by
  rw [segStep_nodes]
  obtain ⟨h1, h2, h3⟩ :=
    attachChild_fields (s.nodes ++ [⟨name, segClass last isdir name, some s.parent, []⟩])
      s.parent s.nodes.length s.nodes.length
  rw [h1, h2, h3, getNode_append_self]
  exact ⟨rfl, rfl, rfl⟩

/-- The attachment guard of a segment step coincides with the duplicate
test on the original heap. -/
lemma segStep_guard (isdir last : Bool) (name : String) (s : SegState)
    (hp : s.parent < s.nodes.length)
    (hb : ∀ c ∈ (getNode s.nodes s.parent).children, c < s.nodes.length) :
    (childNames (s.nodes ++ [⟨name, segClass last isdir name, some s.parent, []⟩])
        s.parent).contains
      (getNode (s.nodes ++ [⟨name, segClass last isdir name, some s.parent, []⟩])
        s.nodes.length).name =
    (childNames s.nodes s.parent).contains name := by
  rw [childNames_append _ _ _ hp hb, getNode_append_self]

/-- A segment step does not change the children of nodes other than the
cursor. -/
lemma segStep_children_ne (isdir last : Bool) (name : String) (s : SegState)
    (j : Nat) (hj : j ≠ s.parent) (hjl : j < s.nodes.length) :
    (getNode (segStep isdir last name s).nodes j).children =
      (getNode s.nodes j).children := by
  rw [segStep_nodes, attachChild_children_ne _ _ _ _ hj, getNode_append_lt _ _ _ hjl]

/-- The node created by a segment step has no children. -/
lemma segStep_children_newId (isdir last : Bool) (name : String) (s : SegState)
    (hp : s.parent < s.nodes.length) :
    (getNode (segStep isdir last name s).nodes s.nodes.length).children = [] := by
  rw [segStep_nodes, attachChild_children_ne _ _ _ _ (Nat.ne_of_lt hp).symm,
    getNode_append_self]

/-- A segment step either leaves the cursor's children unchanged (the
duplicate case) or appends exactly the new identifier. -/
lemma segStep_children_parent (isdir last : Bool) (name : String) (s : SegState)
    (hp : s.parent < s.nodes.length)
    (hb : ∀ c ∈ (getNode s.nodes s.parent).children, c < s.nodes.length) :
    (getNode (segStep isdir last name s).nodes s.parent).children =
      (getNode s.nodes s.parent).children ∨
    ((childNames s.nodes s.parent).contains name = false ∧
      (getNode (segStep isdir last name s).nodes s.parent).children =
        (getNode s.nodes s.parent).children ++ [s.nodes.length]) := by
  rw [segStep_nodes]
  rcases attachChild_children_self
      (s.nodes ++ [⟨name, segClass last isdir name, some s.parent, []⟩])
      s.parent s.nodes.length with h | ⟨hc, h⟩
  · left
    rw [h, getNode_append_lt _ _ _ hp]
  · right
    rw [segStep_guard isdir last name s hp hb] at hc
    constructor
    · exact hc
    · rw [h, getNode_append_lt _ _ _ hp]

/-- A segment step preserves the child-bound invariant. -/
lemma segStep_bounded (isdir last : Bool) (name : String) (s : SegState)
    (hp : s.parent < s.nodes.length) (hb : Bounded s.nodes) :
    Bounded (segStep isdir last name s).nodes := by
  intro i hi c hc
  rw [segStep_length] at hi ⊢
  by_cases hiL : i < s.nodes.length
  · by_cases hip : i = s.parent
    · subst hip
      rcases segStep_children_parent isdir last name s hp (hb _ hp) with h | ⟨-, h⟩
      · rw [h] at hc
        exact Nat.lt_succ_of_lt (hb _ hiL c hc)
      · rw [h] at hc
        rcases List.mem_append.mp hc with h2 | h2
        · exact Nat.lt_succ_of_lt (hb _ hiL c h2)
        · simp only [List.mem_singleton] at h2
          omega
    · rw [segStep_children_ne isdir last name s i hip hiL] at hc
      exact Nat.lt_succ_of_lt (hb _ hiL c hc)
  · have hiId : i = s.nodes.length := by omega
    subst hiId
    rw [segStep_children_newId isdir last name s hp] at hc
    simp at hc

/-- How a segment step transforms the child-name lists: every existing
node keeps its list, except that the cursor gains the new name when it was
not already present. -/
lemma segStep_childNames (isdir last : Bool) (name : String) (s : SegState)
    (j : Nat) (hjl : j < s.nodes.length)
    (hp : s.parent < s.nodes.length) (hb : Bounded s.nodes) :
    childNames (segStep isdir last name s).nodes j = childNames s.nodes j ∨
    (j = s.parent ∧ (childNames s.nodes s.parent).contains name = false ∧
      childNames (segStep isdir last name s).nodes j =
        childNames s.nodes j ++ [name]) := by
  have hnames : ∀ c ∈ (getNode s.nodes j).children,
      (getNode (segStep isdir last name s).nodes c).name = (getNode s.nodes c).name :=
    fun c hc => (segStep_fields isdir last name s c (hb j hjl c hc)).1
  by_cases hjp : j = s.parent
  · rcases segStep_children_parent isdir last name s hp (hb s.parent hp) with h | ⟨hcf, h⟩
    · left
      rw [hjp]
      exact childNames_congr s.nodes _ s.parent h
        (fun c hc => (segStep_fields isdir last name s c (hb s.parent hp c hc)).1)
    · right
      refine ⟨hjp, hcf, ?_⟩
      rw [hjp]
      unfold childNames
      rw [h, List.map_append]
      congr 1
      · exact List.map_congr_left
          (fun c hc => (segStep_fields isdir last name s c (hb s.parent hp c hc)).1)
      · simp [(segStep_newnode isdir last name s).1]
  · exact Or.inl (childNames_congr s.nodes _ j
      (segStep_children_ne isdir last name s j hjp hjl) hnames)

/-- A segment step preserves the distinct-child-names invariant. -/
lemma segStep_nodup (isdir last : Bool) (name : String) (s : SegState)
    (hp : s.parent < s.nodes.length) (hb : Bounded s.nodes)
    (hn : NodupNames s.nodes) :
    NodupNames (segStep isdir last name s).nodes := by
  intro i hi
  rw [segStep_length] at hi
  by_cases hiL : i < s.nodes.length
  · rcases segStep_childNames isdir last name s i hiL hp hb with h | ⟨hip, hcf, h⟩
    · rw [h]
      exact hn i hiL
    · rw [h]
      have hnm : name ∉ childNames s.nodes i := by
        subst hip
        simpa using hcf
      simp [List.nodup_append, hn i hiL, hnm]
  · have hiId : i = s.nodes.length := by omega
    subst hiId
    unfold childNames
    rw [segStep_children_newId isdir last name s hp]
    simp

/-- A segment step preserves segment-state well-formedness. -/
lemma segStep_segOk (isdir last : Bool) (name : String) (s : SegState)
    (h : SegOk s) : SegOk (segStep isdir last name s) := by
  obtain ⟨hb, hn, hs, hp, hne⟩ := h
  refine ⟨segStep_bounded isdir last name s hp hb,
    segStep_nodup isdir last name s hp hb hn, ?_, ?_, ?_⟩ <;>
    rcases Bool.eq_false_or_eq_true (segClass last isdir name) with hcls | hcls
  · obtain ⟨h1, -⟩ := segStep_true isdir last name s hcls
    rw [h1, segStep_length]
    intro j hj
    rcases List.mem_cons.mp hj with h2 | h2
    · omega
    · exact Nat.lt_succ_of_lt (hs j h2)
  · obtain ⟨h1, -⟩ := segStep_false isdir last name s hcls
    rw [h1, segStep_length]
    exact fun j hj => Nat.lt_succ_of_lt (hs j hj)
  · obtain ⟨-, h2⟩ := segStep_true isdir last name s hcls
    rw [h2, segStep_length]
    exact Nat.lt_succ_self _
  · obtain ⟨-, h2⟩ := segStep_false isdir last name s hcls
    rw [h2, segStep_length]
    exact Nat.lt_succ_of_lt hp
  · obtain ⟨h1, -⟩ := segStep_true isdir last name s hcls
    rw [h1]
    exact List.cons_ne_nil _ _
  · obtain ⟨h1, -⟩ := segStep_false isdir last name s hcls
    rw [h1]
    exact hne

/-- A segment step keeps the root record a parentless directory. -/
lemma segStep_root0 (isdir last : Bool) (name : String) (s : SegState)
    (h0 : Root0 s.nodes) : Root0 (segStep isdir last name s).nodes := by
  have hlen : 0 < s.nodes.length := by
    by_contra hc
    have hnil : s.nodes = [] := List.length_eq_zero.mp (by omega)
    rw [hnil] at h0
    exact absurd h0.1 (by simp [getNode])
  obtain ⟨-, h2, h3⟩ := segStep_fields isdir last name s 0 hlen
  exact ⟨by rw [h2]; exact h0.1, by rw [h3]; exact h0.2⟩

/-- The segment loop preserves segment-state well-formedness. -/
lemma segLoop_segOk (isdir : Bool) (parts : List String) :
    ∀ s : SegState, SegOk s → SegOk (segLoop isdir s parts) := by
  induction parts with
  | nil => exact fun s h => h
  | cons name rest ih =>
    exact fun s h => ih _ (segStep_segOk isdir rest.isEmpty name s h)

/-- The segment loop keeps the root record a parentless directory. -/
lemma segLoop_root0 (isdir : Bool) (parts : List String) :
    ∀ s : SegState, Root0 s.nodes → Root0 (segLoop isdir s parts).nodes := by
  induction parts with
  | nil => exact fun s h => h
  | cons name rest ih =>
    exact fun s h => ih _ (segStep_root0 isdir rest.isEmpty name s h)

/-- A successful line step preserves parser-state well-formedness and the
root record. -/
lemma lineStep_inv (w : Nat) (st st' : PState) (ln : Nat × List Char)
    (hinv : PInv st) (h : lineStep w st ln = .ok st') :
    PInv st' ∧ (Root0 st.nodes → Root0 st'.nodes) := by
  obtain ⟨hb, hn, hs, hne⟩ := hinv
  unfold lineStep at h
  dsimp only at h
  split at h
  · cases h
    exact ⟨⟨hb, hn, hs, hne⟩, id⟩
  · split at h
    · cases h
      exact ⟨⟨hb, hn, hs, hne⟩, id⟩
    · split at h
      · exact absurd h (by simp)
      · rename_i hlvl
        cases h
        set stack1 := st.stack.drop (st.stack.length - (levelOf ln.2 w + 1)) with hs1
        have hlen1 : stack1.length = levelOf ln.2 w + 1 := by
          rw [hs1, List.length_drop]
          omega
        have hne1 : stack1 ≠ [] := by
          have : 0 < stack1.length := by omega
          exact List.length_pos.mp this
        have hsub : ∀ j ∈ stack1, j < st.nodes.length :=
          fun j hj => hs j (List.drop_subset _ _ hj)
        have hok : SegOk ⟨st.nodes, stack1, stack1.headD 0⟩ :=
          ⟨hb, hn, hsub, hsub _ (headD_mem 0 hne1), hne1⟩
        have hfin := segLoop_segOk (endsSlash ln.2) (partsOf ln.2) _ hok
        obtain ⟨fb, fn, fs, fp, fne⟩ := hfin
        exact ⟨⟨fb, fn, fs, fne⟩,
          fun h0 => segLoop_root0 (endsSlash ln.2) (partsOf ln.2) _ h0⟩

/-- A successful fold over the post-root lines preserves parser-state
well-formedness and the root record. -/
lemma linesFold_inv (w : Nat) (ls : List (Nat × List Char)) :
    ∀ st st' : PState, PInv st → linesFold w st ls = .ok st' →
      PInv st' ∧ (Root0 st.nodes → Root0 st'.nodes) := by
  induction ls with
  | nil =>
    intro st st' hinv h
    cases h
    exact ⟨hinv, id⟩
  | cons l rest ih =>
    intro st st' hinv h
    unfold linesFold at h
    cases hstep : lineStep w st l with
    | error e =>
      rw [hstep] at h
      exact absurd h (by simp)
    | ok st1 =>
      rw [hstep] at h
      obtain ⟨h1, h2⟩ := lineStep_inv w st st1 l hinv hstep
      obtain ⟨h3, h4⟩ := ih st1 st' h1 h
      exact ⟨h3, fun h0 => h4 (h2 h0)⟩

/-- A successful parse yields a well-formed heap whose node 0 is a
parentless directory. -/
lemma parse_ok_inv (w : Nat) (raw : String) (st : PState)
    (h : parse w raw = .ok st) : PInv st ∧ Root0 st.nodes := by
  unfold parse at h
  split at h
  · exact absurd h (by simp)
  · split at h
    · exact absurd h (by simp)
    · rename_i rlineno rtxt rest heq
      dsimp only at h
      split at h
      · exact absurd h (by simp)
      · have hinv : PInv ⟨[⟨String.mk (stripWs (rstripSet ['/', ' '] rtxt)), true,
            none, []⟩], [0]⟩ := by
          refine ⟨?_, ?_, ?_, ?_⟩
          · intro i hi c hc
            simp only [List.length_singleton, Nat.lt_one_iff] at hi
            subst hi
            simp [getNode] at hc
          · intro i hi
            simp only [List.length_singleton, Nat.lt_one_iff] at hi
            subst hi
            simp [childNames, getNode]
          · intro j hj
            simp only [List.mem_singleton] at hj
            subst hj
            simp
          · simp
        obtain ⟨h1, h2⟩ := linesFold_inv w rest _ st hinv h
        exact ⟨h1, h2 ⟨rfl, rfl⟩⟩

/-- The segment loop appends one node per segment, and the node appended
last — the one created from the final segment — carries the final
segment's name and the final-segment class decision. -/
lemma segLoop_last (isdir : Bool) (parts : List String) :
    ∀ (nm : String) (s : SegState), parts.getLast? = some nm →
      (segLoop isdir s parts).nodes.length = s.nodes.length + parts.length ∧
      (getNode (segLoop isdir s parts).nodes
        ((segLoop isdir s parts).nodes.length - 1)).name = nm ∧
      (getNode (segLoop isdir s parts).nodes
        ((segLoop isdir s parts).nodes.length - 1)).isDir = segClass true isdir nm := by
  induction parts with
  | nil =>
    intro nm s h
    simp at h
  | cons name rest ih =>
    intro nm s h
    by_cases hrest : rest = []
    · subst hrest
      have hnm : nm = name := by
        simp only [List.getLast?_singleton, Option.some.injEq] at h
        exact h.symm
      subst hnm
      have hL := segStep_length isdir true nm s
      refine ⟨hL, ?_, ?_⟩
      · have := (segStep_newnode isdir true nm s).1
        rw [show (segLoop isdir s [nm]).nodes = (segStep isdir true nm s).nodes from rfl,
          hL, Nat.add_sub_cancel]
        exact this
      · have := (segStep_newnode isdir true nm s).2.1
        rw [show (segLoop isdir s [nm]).nodes = (segStep isdir true nm s).nodes from rfl,
          hL, Nat.add_sub_cancel]
        exact this
    · have h2 : rest.getLast? = some nm := by
        obtain ⟨b, t, hbt⟩ := List.exists_cons_of_ne_nil hrest
        subst hbt
        simpa only [List.getLast?_cons_cons] using h
      have hstep := ih nm (segStep isdir rest.isEmpty name s) h2
      have hrw : segLoop isdir s (name :: rest) =
          segLoop isdir (segStep isdir rest.isEmpty name s) rest := rfl
      refine ⟨?_, by rw [hrw]; exact hstep.2.1, by rw [hrw]; exact hstep.2.2⟩
      rw [hrw, hstep.1, segStep_length]
      simp only [List.length_cons]
      omega

/-- Every identifier reachable in a heap whose child links stay below a
bound stays below that bound when the start does. -/
lemma reach_lt (nodes : List NodeRec) (L : Nat)
    (hL : ∀ i, i < L → ∀ c ∈ (getNode nodes i).children, c < L) :
    ∀ (fuel r : Nat), r < L → ∀ x ∈ reachIds nodes fuel r, x < L := by
  intro fuel
  induction fuel with
  | zero =>
    intro r hr x hx
    simp [reachIds] at hx
  | succ f ih =>
    intro r hr x hx
    simp only [reachIds, List.mem_cons] at hx
    rcases hx with h | h
    · omega
    · rw [List.mem_flatMap] at h
      obtain ⟨c, hc, hx2⟩ := h
      exact ih c (hL r hr c hc) x hx2

/-- Case analysis of a successful `_create_dir`. -/
lemma createDir_ok_cases (cfg : Creator) (st : MState) (path rel : List String)
    (st' : MState) (h : createDir cfg st path rel = .ok st') :
    (matchesExclude cfg.excl rel = true ∧ st'.fs = st.fs) ∨
    (matchesExclude cfg.excl rel = false ∧ cfg.dryRun = true ∧ st'.fs = st.fs) ∨
    (matchesExclude cfg.excl rel = false ∧ cfg.dryRun = false ∧
      mkdirParents st.fs path = some st'.fs) := by
  unfold createDir at h
  split at h
  · rename_i hm
    cases h
    exact Or.inl ⟨hm, rfl⟩
  · rename_i hm
    split at h
    · rename_i hd
      cases h
      exact Or.inr (Or.inl ⟨Bool.eq_false_iff.mpr hm, hd, rfl⟩)
    · rename_i hd
      split at h
      · exact absurd h (by simp)
      · rename_i fs1 hmk
        cases h
        exact Or.inr (Or.inr ⟨Bool.eq_false_iff.mpr hm, Bool.eq_false_iff.mpr hd, hmk⟩)

/-- With no template content, `_create_file` reduces to exclusion check,
dry-run log, or parent creation followed by a `touch`. -/
lemma createFile_tpl_none (cfg : Creator) (htpl : cfg.tpl = fun _ => none)
    (st : MState) (path rel : List String) :
    createFile cfg st path rel =
      if matchesExclude cfg.excl rel then
        .ok ⟨st.fs, st.dirsCreated, st.filesCreated, st.skipped + 1, st.actions⟩
      else if cfg.dryRun then
        .ok ⟨st.fs, st.dirsCreated, st.filesCreated + 1, st.skipped,
             st.actions ++ [Action.touchA path]⟩
      else
        match mkdirParents st.fs path.dropLast with
        | none => .error (RunErr.fsError, st)
        | some fs1 =>
          .ok ⟨touchFs fs1 path, st.dirsCreated, st.filesCreated + 1, st.skipped,
               st.actions ++ [Action.touchA path]⟩ := by
  unfold createFile
  rw [htpl]
  cases path.getLast? <;> rfl

/-- Case analysis of a successful `_create_file` without templates. -/
lemma createFile_ok_cases (cfg : Creator) (htpl : cfg.tpl = fun _ => none)
    (st : MState) (path rel : List String) (st' : MState)
    (h : createFile cfg st path rel = .ok st') :
    (matchesExclude cfg.excl rel = true ∧ st'.fs = st.fs) ∨
    (matchesExclude cfg.excl rel = false ∧ cfg.dryRun = true ∧ st'.fs = st.fs) ∨
    (matchesExclude cfg.excl rel = false ∧ cfg.dryRun = false ∧
      ∃ fs1, mkdirParents st.fs path.dropLast = some fs1 ∧
        st'.fs = touchFs fs1 path) := by
  rw [createFile_tpl_none cfg htpl st path rel] at h
  split at h
  · rename_i hm
    cases h
    exact Or.inl ⟨hm, rfl⟩
  · rename_i hm
    split at h
    · rename_i hd
      cases h
      exact Or.inr (Or.inl ⟨Bool.eq_false_iff.mpr hm, hd, rfl⟩)
    · rename_i hd
      split at h
      · exact absurd h (by simp)
      · rename_i fs1 hmk
        cases h
        exact Or.inr (Or.inr ⟨Bool.eq_false_iff.mpr hm, Bool.eq_false_iff.mpr hd,
          fs1, hmk, rfl⟩)

/-- The `_create_dir` operation preserves every successful lookup. -/
lemma createDir_mono (cfg : Creator) (st : MState) (path rel : List String)
    (st' : MState) (h : createDir cfg st path rel = .ok st') :
    ∀ p e, lookupFs st.fs p = some e → lookupFs st'.fs p = some e := by
  intro p e hp
  rcases createDir_ok_cases cfg st path rel st' h with ⟨-, hfs⟩ | ⟨-, -, hfs⟩ | ⟨-, -, hmk⟩
  · rw [hfs]; exact hp
  · rw [hfs]; exact hp
  · exact ensureDirs_mono _ _ _ hmk p e hp

/-- The `_create_file` operation without templates preserves every successful lookup. -/
lemma createFile_mono (cfg : Creator) (htpl : cfg.tpl = fun _ => none)
    (st : MState) (path rel : List String) (st' : MState)
    (h : createFile cfg st path rel = .ok st') :
    ∀ p e, lookupFs st.fs p = some e → lookupFs st'.fs p = some e := by
  intro p e hp
  rcases createFile_ok_cases cfg htpl st path rel st' h with
    ⟨-, hfs⟩ | ⟨-, -, hfs⟩ | ⟨-, -, fs1, hmk, hfs⟩
  · rw [hfs]; exact hp
  · rw [hfs]; exact hp
  · rw [hfs]
    exact touchFs_mono fs1 path p e (ensureDirs_mono _ _ _ hmk p e hp)

-- Lookup preservation through the whole recursive traversal.
mutual
theorem recNode_mono (cfg : Creator) (htpl : cfg.tpl = fun _ => none) :
    ∀ (n : PNode) (base rel : List String) (st st' : MState),
      recurseNode cfg n base rel st = .ok st' →
      ∀ p e, lookupFs st.fs p = some e → lookupFs st'.fs p = some e
  | PNode.file name, base, rel, st, st', h => by
    have hcf : createFile cfg st (base ++ [name]) (rel ++ [name]) = .ok st' := h
    exact createFile_mono cfg htpl st _ _ st' hcf
  | PNode.dir name cs, base, rel, st, st', h => by
    unfold recurseNode at h
    cases hcd : createDir cfg st (base ++ [name]) (rel ++ [name]) with
    | error e =>
      rw [hcd] at h
      exact absurd h (by simp)
    | ok st1 =>
      rw [hcd] at h
      simp only at h
      intro p e hp
      exact recForest_mono cfg htpl cs (base ++ [name]) (rel ++ [name]) st1 st' h p e
        (createDir_mono cfg st _ _ st1 hcd p e hp)
theorem recForest_mono (cfg : Creator) (htpl : cfg.tpl = fun _ => none) :
    ∀ (f : PForest) (base rel : List String) (st st' : MState),
      recChildren cfg f base rel st = .ok st' →
      ∀ p e, lookupFs st.fs p = some e → lookupFs st'.fs p = some e
  | PForest.nil, base, rel, st, st', h => by
    have h2 : (Except.ok st : Except (RunErr × MState) MState) = .ok st' := h
    cases h2
    exact fun p e hp => hp
  | PForest.cons c rest, base, rel, st, st', h => by
    unfold recChildren at h
    cases hrc : recurseNode cfg c base rel st with
    | error e =>
      rw [hrc] at h
      exact absurd h (by simp)
    | ok st1 =>
      rw [hrc] at h
      simp only at h
      intro p e hp
      exact recForest_mono cfg htpl rest base rel st1 st' h p e
        (recNode_mono cfg htpl c base rel st st1 hrc p e hp)
end

-- The done predicates only state that certain lookups succeed, so they
-- transfer along lookup preservation.
mutual
theorem doneNode_mono (excl : List (String → Bool)) (fs fs2 : FsT)
    (hmono : ∀ p e, lookupFs fs p = some e → lookupFs fs2 p = some e) :
    ∀ (n : PNode) (base rel : List String),
      doneNode excl fs n base rel → doneNode excl fs2 n base rel
  | PNode.file name, base, rel, hd => by
    unfold doneNode at hd ⊢
    rcases hd with hm | ⟨hpre, hex⟩
    · exact Or.inl hm
    · refine Or.inr ⟨fun q hq => hmono q _ (hpre q hq), ?_⟩
      cases hl : lookupFs fs (base ++ [name]) with
      | none => exact absurd hl hex
      | some e =>
        rw [hmono _ _ hl]
        simp
  | PNode.dir name cs, base, rel, hd => by
    unfold doneNode at hd ⊢
    obtain ⟨hown, hcs⟩ := hd
    refine ⟨?_, doneForest_mono excl fs fs2 hmono cs _ _ hcs⟩
    rcases hown with hm | hpre
    · exact Or.inl hm
    · exact Or.inr (fun q hq => hmono q _ (hpre q hq))
theorem doneForest_mono (excl : List (String → Bool)) (fs fs2 : FsT)
    (hmono : ∀ p e, lookupFs fs p = some e → lookupFs fs2 p = some e) :
    ∀ (f : PForest) (base rel : List String),
      doneForest excl fs f base rel → doneForest excl fs2 f base rel
  | PForest.nil, base, rel, hd => trivial
  | PForest.cons c rest, base, rel, hd => by
    unfold doneForest at hd ⊢
    exact ⟨doneNode_mono excl fs fs2 hmono c _ _ hd.1,
      doneForest_mono excl fs fs2 hmono rest _ _ hd.2⟩
end

-- A completed non-dry run without templates leaves the filesystem in a
-- state that covers every node of the traversed tree.
mutual
theorem recNode_done (cfg : Creator) (hdry : cfg.dryRun = false)
    (htpl : cfg.tpl = fun _ => none) :
    ∀ (n : PNode) (base rel : List String) (st st' : MState),
      recurseNode cfg n base rel st = .ok st' →
      doneNode cfg.excl st'.fs n base rel
  | PNode.file name, base, rel, st, st', h => by
    have hcf : createFile cfg st (base ++ [name]) (rel ++ [name]) = .ok st' := h
    unfold doneNode
    rcases createFile_ok_cases cfg htpl st _ _ st' hcf with
      ⟨hm, -⟩ | ⟨-, hdd, -⟩ | ⟨hm, -, fs1, hmk, hfs⟩
    · exact Or.inl hm
    · rw [hdry] at hdd
      exact absurd hdd (by simp)
    · have hdl : (base ++ [name]).dropLast = base := by simp
      rw [hdl] at hmk
      refine Or.inr ⟨?_, ?_⟩
      · intro q hq
        rw [hfs]
        exact touchFs_mono fs1 _ q _ (ensureDirs_establish _ _ _ hmk q hq)
      · rw [hfs]
        exact touchFs_self fs1 _
  | PNode.dir name cs, base, rel, st, st', h => by
    unfold recurseNode at h
    cases hcd : createDir cfg st (base ++ [name]) (rel ++ [name]) with
    | error e =>
      rw [hcd] at h
      exact absurd h (by simp)
    | ok st1 =>
      rw [hcd] at h
      simp only at h
      unfold doneNode
      refine ⟨?_, recForest_done cfg hdry htpl cs _ _ st1 st' h⟩
      rcases createDir_ok_cases cfg st _ _ st1 hcd with
        ⟨hm, -⟩ | ⟨-, hdd, -⟩ | ⟨hm, -, hmk⟩
      · exact Or.inl hm
      · rw [hdry] at hdd
        exact absurd hdd (by simp)
      · exact Or.inr (fun q hq => recForest_mono cfg htpl cs _ _ st1 st' h q _
          (ensureDirs_establish _ _ _ hmk q hq))
theorem recForest_done (cfg : Creator) (hdry : cfg.dryRun = false)
    (htpl : cfg.tpl = fun _ => none) :
    ∀ (f : PForest) (base rel : List String) (st st' : MState),
      recChildren cfg f base rel st = .ok st' →
      doneForest cfg.excl st'.fs f base rel
  | PForest.nil, base, rel, st, st', h => trivial
  | PForest.cons c rest, base, rel, st, st', h => by
    unfold recChildren at h
    cases hrc : recurseNode cfg c base rel st with
    | error e =>
      rw [hrc] at h
      exact absurd h (by simp)
    | ok st1 =>
      rw [hrc] at h
      simp only at h
      unfold doneForest
      refine ⟨?_, recForest_done cfg hdry htpl rest _ _ st1 st' h⟩
      exact doneNode_mono cfg.excl st1.fs st'.fs
        (fun p e hp => recForest_mono cfg htpl rest base rel st1 st' h p e hp)
        c base rel (recNode_done cfg hdry htpl c base rel st st1 hrc)
end

-- Re-running the traversal on a filesystem that already covers the tree
-- succeeds and changes nothing.
mutual
theorem recNode_noop (cfg : Creator) (hdry : cfg.dryRun = false)
    (htpl : cfg.tpl = fun _ => none) :
    ∀ (n : PNode) (base rel : List String) (st : MState),
      doneNode cfg.excl st.fs n base rel →
      ∃ st', recurseNode cfg n base rel st = .ok st' ∧ st'.fs = st.fs
  | PNode.file name, base, rel, st, hd => by
    unfold doneNode at hd
    by_cases hm : matchesExclude cfg.excl (rel ++ [name]) = true
    · refine ⟨⟨st.fs, st.dirsCreated, st.filesCreated, st.skipped + 1, st.actions⟩,
        ?_, rfl⟩
      show createFile cfg st (base ++ [name]) (rel ++ [name]) = _
      rw [createFile_tpl_none cfg htpl, if_pos hm]
    · rcases hd with hm2 | ⟨hpre, hex⟩
      · exact absurd hm2 hm
      · have hdl : (base ++ [name]).dropLast = base := by simp
        have hmk : mkdirParents st.fs ((base ++ [name]).dropLast) = some st.fs := by
          rw [hdl]
          exact ensureDirs_noop _ _ hpre
        refine ⟨⟨touchFs st.fs (base ++ [name]), st.dirsCreated, st.filesCreated + 1,
          st.skipped, st.actions ++ [Action.touchA (base ++ [name])]⟩, ?_, ?_⟩
        · show createFile cfg st (base ++ [name]) (rel ++ [name]) = _
          rw [createFile_tpl_none cfg htpl, if_neg hm, hdry]
          simp only [Bool.false_eq_true, if_false]
          rw [hmk]
        · exact touchFs_noop st.fs _ hex
  | PNode.dir name cs, base, rel, st, hd => by
    unfold doneNode at hd
    obtain ⟨hown, hcs⟩ := hd
    by_cases hm : matchesExclude cfg.excl (rel ++ [name]) = true
    · have hstep : createDir cfg st (base ++ [name]) (rel ++ [name]) =
          .ok ⟨st.fs, st.dirsCreated, st.filesCreated, st.skipped + 1, st.actions⟩ := by
        unfold createDir
        rw [if_pos hm]
      obtain ⟨st2, h2, hfs2⟩ := recForest_noop cfg hdry htpl cs (base ++ [name])
        (rel ++ [name])
        ⟨st.fs, st.dirsCreated, st.filesCreated, st.skipped + 1, st.actions⟩ hcs
      refine ⟨st2, ?_, by rw [hfs2]⟩
      unfold recurseNode
      rw [hstep]
      exact h2
    · rcases hown with hm2 | hpre
      · exact absurd hm2 hm
      · have hmk : mkdirParents st.fs (base ++ [name]) = some st.fs :=
          ensureDirs_noop _ _ hpre
        have hstep : createDir cfg st (base ++ [name]) (rel ++ [name]) =
            .ok ⟨st.fs, st.dirsCreated + 1, st.filesCreated, st.skipped,
              st.actions ++ [Action.mkdirA (base ++ [name])]⟩ := by
          unfold createDir
          rw [if_neg hm, hdry]
          simp only [Bool.false_eq_true, if_false]
          rw [hmk]
        obtain ⟨st2, h2, hfs2⟩ := recForest_noop cfg hdry htpl cs (base ++ [name])
          (rel ++ [name])
          ⟨st.fs, st.dirsCreated + 1, st.filesCreated, st.skipped,
            st.actions ++ [Action.mkdirA (base ++ [name])]⟩ hcs
        refine ⟨st2, ?_, by rw [hfs2]⟩
        unfold recurseNode
        rw [hstep]
        exact h2
theorem recForest_noop (cfg : Creator) (hdry : cfg.dryRun = false)
    (htpl : cfg.tpl = fun _ => none) :
    ∀ (f : PForest) (base rel : List String) (st : MState),
      doneForest cfg.excl st.fs f base rel →
      ∃ st', recChildren cfg f base rel st = .ok st' ∧ st'.fs = st.fs
  | PForest.nil, base, rel, st, hd => ⟨st, rfl, rfl⟩
  | PForest.cons c rest, base, rel, st, hd => by
    unfold doneForest at hd
    obtain ⟨hc, hrest⟩ := hd
    obtain ⟨st1, h1, hfs1⟩ := recNode_noop cfg hdry htpl c base rel st hc
    obtain ⟨st2, h2, hfs2⟩ := recForest_noop cfg hdry htpl rest base rel st1
      (by rw [hfs1]; exact hrest)
    refine ⟨st2, ?_, by rw [hfs2, hfs1]⟩
    unfold recChildren
    rw [h1]
    exact h2
end

/-! ## Claim theorems -/

/-- Claim C1: parsing the five-entry example input returns a tree with
`root` as a directory whose children are `src` (a directory containing the
files `main.py` and `utils.py`) and the file `README.md`, and a dry-run
materialization of that tree with no exclusions reports exactly 2
directory actions and 3 file actions, emitted in pre-order
`root, src, main.py, utils.py, README.md`. -/
theorem claim_c1 :
    parsedTree 4 "root\n├── src/\n│   ├── main.py\n│   └── utils.py\n└── README.md" =
      some (PNode.dir "root" (ofList [PNode.dir "src" (ofList [PNode.file "main.py",
        PNode.file "utils.py"]), PNode.file "README.md"])) ∧
    executeM ⟨true, true, fun _ => none, []⟩ none
        (PNode.dir "root" (ofList [PNode.dir "src" (ofList [PNode.file "main.py",
          PNode.file "utils.py"]), PNode.file "README.md"])) ⟨[], 0, 0, 0, []⟩ =
      .ok ⟨[], 2, 3, 0,
        [Action.mkdirA ["root"], Action.mkdirA ["root", "src"],
         Action.touchA ["root", "src", "main.py"],
         Action.touchA ["root", "src", "utils.py"],
         Action.touchA ["root", "README.md"]]⟩ :=
  ⟨rfl, rfl⟩

/-- Claim C2 counterexample: the line `│ ├── b.py` contains a branch
glyph, so the claim's rule assigns it level 1 (one vertical-continuation
glyph before the cut), but the parser assigns it level 0 (the cut index 2
divided by the indent width 4), and accordingly attaches `b.py` to the
root rather than below `a`. -/
theorem claim_c2_counterexample :
    (cutInfo (lineTxt ("│ ├── b.py".data))).isSome = true ∧
    specLevelC2 (lineTxt ("│ ├── b.py".data)) 4 = 1 ∧
    levelOf (lineTxt ("│ ├── b.py".data)) 4 = 0 ∧
    parsedTree 4 "root\n├── a/\n│ ├── b.py" =
      some (PNode.dir "root" (ofList [PNode.dir "a" (ofList []), PNode.file "b.py"])) :=
  ⟨rfl, rfl, rfl, rfl⟩

/-- Claim C2 amended: the cut index is the position of the first branch
glyph when one is present and otherwise the count of leading space
characters, and in **both** cases the level is the cut index divided by the
indent width using integer division. -/
theorem claim_c2_amended (txt : List Char) (w : Nat) :
    cutIdxOf txt = amendedCutIdx txt ∧ levelOf txt w = amendedCutIdx txt / w := by
  have h : cutIdxOf txt = amendedCutIdx txt := by
    simp only [cutIdxOf, amendedCutIdx, cutInfo_eq_firstIdx]
  exact ⟨h, by simp only [levelOf, h]⟩

/-- Claim C3: every successful parse yields a heap in which every node's
children carry pairwise-distinct names, and an attachment whose name
duplicates an existing sibling leaves the heap unchanged, so the child
retained is the one created from the first occurrence. -/
theorem claim_c3 (w : Nat) (raw : String) (st : PState) (h : parse w raw = .ok st) :
    (∀ i, i < st.nodes.length → (childNames st.nodes i).Nodup) ∧
    (∀ (nodes : List NodeRec) (pid cid : Nat),
      (childNames nodes pid).contains (getNode nodes cid).name = true →
      attachChild nodes pid cid = nodes) :=
  ⟨(parse_ok_inv w raw st h).1.2.1,
   fun nodes pid cid hc => attachChild_dup nodes pid cid hc⟩

/-- Claim C3 witness: an input declaring `a.py` twice under the root
parses into a heap whose root keeps a single child, and the distinctness
invariant is evaluated at it. -/
theorem claim_c3_witness :
    parse 4 "root\n├── a.py\n├── a.py" =
      .ok ⟨[⟨"root", true, none, [1]⟩, ⟨"a.py", false, some 0, []⟩,
        ⟨"a.py", false, some 0, []⟩], [0]⟩ ∧
    ∀ i, i < ([⟨"root", true, none, [1]⟩, ⟨"a.py", false, some 0, []⟩,
        ⟨"a.py", false, some 0, []⟩] : List NodeRec).length →
      (childNames [⟨"root", true, none, [1]⟩, ⟨"a.py", false, some 0, []⟩,
        ⟨"a.py", false, some 0, []⟩] i).Nodup :=
  ⟨rfl,
   (claim_c3 4 "root\n├── a.py\n├── a.py"
     ⟨[⟨"root", true, none, [1]⟩, ⟨"a.py", false, some 0, []⟩,
       ⟨"a.py", false, some 0, []⟩], [0]⟩ rfl).1⟩

/-- Claim C9: materializing the same tree twice in non-dry-run mode with
no template content is idempotent — when the first run succeeds, a second
run on the resulting filesystem raises no errors and leaves the
filesystem exactly as the first run left it (re-creating existing
directories succeeds; touching existing files alters nothing). -/
theorem claim_c9 (cfg : Creator) (root : PNode) (resp : Option String)
    (st0 st1 : MState)
    (hdry : cfg.dryRun = false) (hcf : cfg.confirm = false)
    (htpl : cfg.tpl = fun _ => none)
    (h1 : executeM cfg resp root st0 = .ok st1) :
    ∃ st2, executeM cfg resp root ⟨st1.fs, 0, 0, 0, []⟩ = .ok st2 ∧
      st2.fs = st1.fs := by
  have hexec : ∀ st : MState, executeM cfg resp root st = recurseNode cfg root [] [] st := by
    intro st
    unfold executeM
    rw [hcf]
    simp
  rw [hexec] at h1
  have hdone : doneNode cfg.excl st1.fs root [] [] :=
    recNode_done cfg hdry htpl root [] [] st0 st1 h1
  obtain ⟨st2, h2, h3⟩ :=
    recNode_noop cfg hdry htpl root [] [] ⟨st1.fs, 0, 0, 0, []⟩ hdone
  exact ⟨st2, by rw [hexec]; exact h2, h3⟩

/-- Claim C9 witness: a concrete two-node tree materialized onto the empty
filesystem, then materialized again onto the result. -/
theorem claim_c9_witness :
    executeM ⟨false, false, fun _ => none, []⟩ none
        (PNode.dir "r" (ofList [PNode.file "a.txt"])) ⟨[], 0, 0, 0, []⟩ =
      .ok ⟨[(["r"], Entry.dir), (["r", "a.txt"], Entry.file "")], 1, 1, 0,
        [Action.mkdirA ["r"], Action.touchA ["r", "a.txt"]]⟩ ∧
    ∃ st2, executeM ⟨false, false, fun _ => none, []⟩ none
        (PNode.dir "r" (ofList [PNode.file "a.txt"]))
        ⟨[(["r"], Entry.dir), (["r", "a.txt"], Entry.file "")], 0, 0, 0, []⟩ =
      .ok st2 ∧ st2.fs = [(["r"], Entry.dir), (["r", "a.txt"], Entry.file "")] :=
  ⟨rfl,
   claim_c9 ⟨false, false, fun _ => none, []⟩
     (PNode.dir "r" (ofList [PNode.file "a.txt"])) none ⟨[], 0, 0, 0, []⟩
     ⟨[(["r"], Entry.dir), (["r", "a.txt"], Entry.file "")], 1, 1, 0,
       [Action.mkdirA ["r"], Action.touchA ["r", "a.txt"]]⟩ rfl rfl rfl rfl⟩

/-- Claim C10: every successful parse returns a non-empty heap whose node
0 — the returned root — is a directory with no parent, whatever the shape
of the first surviving line. -/
theorem claim_c10 (w : Nat) (raw : String) (st : PState) (h : parse w raw = .ok st) :
    0 < st.nodes.length ∧ (getNode st.nodes 0).isDir = true ∧
    (getNode st.nodes 0).parent = none := by
  obtain ⟨⟨hb, hn, hs, hne⟩, h0⟩ := parse_ok_inv w raw st h
  refine ⟨?_, h0.1, h0.2⟩
  cases hst : st.stack with
  | nil => exact absurd hst hne
  | cons a t =>
    exact Nat.lt_of_le_of_lt (Nat.zero_le a) (hs a (by rw [hst]; simp))

/-- Claim C10 witness: a root line with a dotted, extension-like name and
no trailing separator still parses to a parentless directory root. -/
theorem claim_c10_witness :
    parse 4 "file.txt" = .ok ⟨[⟨"file.txt", true, none, []⟩], [0]⟩ ∧
    (0 < 1 ∧ (getNode [⟨"file.txt", true, none, []⟩] 0).isDir = true ∧
      (getNode [⟨"file.txt", true, none, []⟩] 0).parent = none) :=
  ⟨rfl, claim_c10 4 "file.txt" ⟨[⟨"file.txt", true, none, []⟩], [0]⟩ rfl⟩

/-- Claim C4: when a directory segment duplicates the name of an existing
sibling, the step still appends the new node object to the heap while the
parent's children list is left unchanged (the node is discarded from the
tree), yet the cursor and the stack top advance to the discarded node; the
discarded node is unreachable from every pre-existing node, and any
following segment step attaches its node beneath the discarded node, where
it is equally unreachable. -/
theorem claim_c4 (s : SegState) (isdir last : Bool) (name : String)
    (hcls : segClass last isdir name = true)
    (hdup : (childNames s.nodes s.parent).contains name = true)
    (hp : s.parent < s.nodes.length)
    (hb : Bounded s.nodes) :
    segStep isdir last name s =
      ⟨s.nodes ++ [⟨name, true, some s.parent, []⟩],
        s.nodes.length :: s.stack, s.nodes.length⟩ ∧
    (∀ fuel r, r < s.nodes.length →
      s.nodes.length ∉ reachIds (segStep isdir last name s).nodes fuel r) ∧
    ∀ (last2 : Bool) (name2 : String),
      (getNode (segStep isdir last2 name2 (segStep isdir last name s)).nodes
          s.nodes.length).children = [s.nodes.length + 1] ∧
      (getNode (segStep isdir last2 name2 (segStep isdir last name s)).nodes
          s.parent).children = (getNode s.nodes s.parent).children ∧
      (getNode (segStep isdir last2 name2 (segStep isdir last name s)).nodes
          (s.nodes.length + 1)).parent = some s.nodes.length ∧
      ∀ fuel r, r < s.nodes.length →
        s.nodes.length + 1 ∉
          reachIds (segStep isdir last2 name2 (segStep isdir last name s)).nodes
            fuel r := by
  have hguard : (childNames
      (s.nodes ++ [⟨name, segClass last isdir name, some s.parent, []⟩])
      s.parent).contains
      (getNode (s.nodes ++ [⟨name, segClass last isdir name, some s.parent, []⟩])
        s.nodes.length).name = true := by
    rw [segStep_guard isdir last name s hp (hb _ hp)]
    exact hdup
  have hnodes : (segStep isdir last name s).nodes =
      s.nodes ++ [⟨name, true, some s.parent, []⟩] := by
    rw [segStep_nodes, attachChild_dup _ _ _ hguard, hcls]
  obtain ⟨hstk, hpar⟩ := segStep_true isdir last name s hcls
  have hstep1 : segStep isdir last name s =
      ⟨s.nodes ++ [⟨name, true, some s.parent, []⟩],
        s.nodes.length :: s.stack, s.nodes.length⟩ := by
    rw [← hnodes, ← hstk, ← hpar]
  refine ⟨hstep1, ?_, ?_⟩
  · intro fuel r hr hmem
    have hbound : ∀ i, i < s.nodes.length →
        ∀ c ∈ (getNode (segStep isdir last name s).nodes i).children,
          c < s.nodes.length := by
      intro i hi c hc
      rw [hnodes, getNode_append_lt _ _ _ hi] at hc
      exact hb i hi c hc
    exact absurd (reach_lt _ _ hbound fuel r hr _ hmem) (lt_irrefl _)
  · intro last2 name2
    rw [hstep1]
    set A := s.nodes ++ [(⟨name, true, some s.parent, []⟩ : NodeRec)] with hA
    have hAlen : A.length = s.nodes.length + 1 := by
      rw [hA]
      simp
    have hchL : getNode A s.nodes.length = ⟨name, true, some s.parent, []⟩ := by
      rw [hA]
      exact getNode_append_self _ _
    have hcnL : childNames
        (A ++ [(⟨name2, segClass last2 isdir name2, some s.nodes.length, []⟩ : NodeRec)])
        s.nodes.length = [] := by
      unfold childNames
      rw [getNode_append_lt _ _ _ (by omega), hchL]
      rfl
    refine ⟨?_, ?_, ?_, ?_⟩
    · rw [show (segStep isdir last2 name2
          (⟨A, s.nodes.length :: s.stack, s.nodes.length⟩ : SegState)).nodes =
          attachChild
            (A ++ [(⟨name2, segClass last2 isdir name2, some s.nodes.length, []⟩ :
              NodeRec)]) s.nodes.length A.length
          from segStep_nodes isdir last2 name2 _]
      rw [attachChild_new _ _ _ (by rw [hcnL]; rfl)
        (by simp only [List.length_append, List.length_singleton]; omega)]
      rw [getNode_append_lt _ _ _ (by omega), hchL]
      simp [hAlen]
    · rw [segStep_children_ne isdir last2 name2
        (⟨A, s.nodes.length :: s.stack, s.nodes.length⟩ : SegState) s.parent
        (show s.parent ≠ s.nodes.length by omega)
        (show s.parent < A.length by omega)]
      rw [show (⟨A, s.nodes.length :: s.stack, s.nodes.length⟩ : SegState).nodes = A
        from rfl]
      rw [hA, getNode_append_lt _ _ _ hp]
    · have h3 := (segStep_newnode isdir last2 name2
        (⟨A, s.nodes.length :: s.stack, s.nodes.length⟩ : SegState)).2.2
      dsimp only at h3
      rw [hAlen] at h3
      exact h3
    · intro fuel r hr hmem
      have hbound2 : ∀ i, i < s.nodes.length →
          ∀ c ∈ (getNode (segStep isdir last2 name2
            (⟨A, s.nodes.length :: s.stack, s.nodes.length⟩ : SegState)).nodes
              i).children,
            c < s.nodes.length := by
        intro i hi c hc
        rw [segStep_children_ne isdir last2 name2
          (⟨A, s.nodes.length :: s.stack, s.nodes.length⟩ : SegState) i
          (show i ≠ s.nodes.length by omega)
          (show i < A.length by omega)] at hc
        rw [show (⟨A, s.nodes.length :: s.stack, s.nodes.length⟩ : SegState).nodes = A
          from rfl] at hc
        rw [hA, getNode_append_lt _ _ _ hi] at hc
        exact hb i hi c hc
      have hlt := reach_lt _ _ hbound2 fuel r hr _ hmem
      omega

/-- Claim C4 witness: a duplicate directory segment `a` under a root that
already has a child `a` is appended to the heap but not to the root's
children, while the cursor and stack top advance to it. -/
theorem claim_c4_witness :
    (childNames [⟨"root", true, none, [1]⟩, ⟨"a", true, some 0, []⟩] 0).contains "a" =
      true ∧
    segStep true true "a"
        ⟨[⟨"root", true, none, [1]⟩, ⟨"a", true, some 0, []⟩], [1, 0], 0⟩ =
      ⟨[⟨"root", true, none, [1]⟩, ⟨"a", true, some 0, []⟩] ++ [⟨"a", true, some 0, []⟩],
        2 :: [1, 0], 2⟩ :=
  ⟨rfl,
   (claim_c4 ⟨[⟨"root", true, none, [1]⟩, ⟨"a", true, some 0, []⟩], [1, 0], 0⟩
     true true "a" rfl rfl (by decide) (by unfold Bounded; decide)).1⟩

/-- Claim C5 counterexample: in the input whose second line is eight
spaces followed by a bare separator, that surviving line has computed
level 2 while the stack depth when it is processed is 1 (the line is
folded from the initial one-entry state and leaves it unchanged), yet
parsing succeeds instead of failing with a structure error: the line is
skipped as carrying no entry before level validation runs. -/
theorem claim_c5_counterexample :
    filteredLines "root\n        /" = [(1, "root".data), (2, "        /".data)] ∧
    levelOf ("        /".data) 4 = 2 ∧
    linesFold 4 ⟨[⟨"root", true, none, []⟩], [0]⟩ [(2, "        /".data)] =
      .ok ⟨[⟨"root", true, none, []⟩], [0]⟩ ∧
    parse 4 "root\n        /" = .ok ⟨[⟨"root", true, none, []⟩], [0]⟩ :=
  ⟨rfl, rfl, rfl, rfl⟩

/-- Claim C5 amended: for every line that still carries at least one name
segment, if its computed level plus one exceeds the current level-stack
depth then parsing fails with a structure error identifying the offending
line number, the attempted level, and the maximum permitted level; and a
parse error stops the pipeline before any materialization, leaving the
filesystem untouched. -/
theorem claim_c5 :
    (∀ (w : Nat) (st : PState) (lineno : Nat) (txt : List Char)
      (rest : List (Nat × List Char)),
      partsOf txt ≠ [] → st.stack.length < levelOf txt w + 1 →
      linesFold w st ((lineno, txt) :: rest) =
        .error (ParseErr.tooDeep lineno (levelOf txt w) (st.stack.length - 1))) ∧
    (∀ (w : Nat) (cfg : Creator) (resp : Option String) (st0 : MState)
      (raw : String) (e : ParseErr),
      parse w raw = .error e → pipeline w cfg resp st0 raw = .parseError e st0.fs) := by
  constructor
  · intro w st lineno txt rest hp hlvl
    have hnr : (namesRaw txt).isEmpty = false := by
      cases h : (namesRaw txt).isEmpty
      · rfl
      · exact absurd (partsOf_eq_nil_of_namesRaw txt (by simpa using h)) hp
    have hpe : (partsOf txt).isEmpty = false := by
      cases h : (partsOf txt).isEmpty
      · rfl
      · exact absurd (by simpa using h) hp
    simp [linesFold, lineStep, hnr, hpe, hlvl]
  · intro w cfg resp st0 raw e h
    simp [pipeline, h]

/-- Claim C5 witness: a line carrying the segment `x.py` at level 2 while
the stack has depth 1 fails with the structure error naming line 2,
level 2, and maximum level 0. -/
theorem claim_c5_witness :
    partsOf ("        x.py".data) ≠ [] ∧
    (1 : Nat) < levelOf ("        x.py".data) 4 + 1 ∧
    linesFold 4 ⟨[⟨"root", true, none, []⟩], [0]⟩ [(2, "        x.py".data)] =
      .error (ParseErr.tooDeep 2 (levelOf ("        x.py".data) 4) (1 - 1)) :=
  ⟨by decide, by decide,
   claim_c5.1 4 ⟨[⟨"root", true, none, []⟩], [0]⟩ 2 ("        x.py".data) []
     (by decide) (by decide)⟩

/-- Claim C6: in a successfully processed entry line, the node created
from the final segment (the last of the nodes the line appends to the
heap) is a directory whenever the line ends with a path separator,
regardless of the name; and is a file whenever the name has a dotted
suffix and the line has no trailing separator. -/
theorem claim_c6 (w : Nat) (st st' : PState) (lineno : Nat) (txt : List Char)
    (hok : lineStep w st (lineno, txt) = .ok st') (hne : partsOf txt ≠ [])
    (nm : String) (hlast : (partsOf txt).getLast? = some nm) :
    st'.nodes.length = st.nodes.length + (partsOf txt).length ∧
    (endsSlash txt = true →
      (getNode st'.nodes (st'.nodes.length - 1)).isDir = true) ∧
    (endsSlash txt = false → hasSuffix nm = true →
      (getNode st'.nodes (st'.nodes.length - 1)).isDir = false) := by
  have hnr : (namesRaw txt).isEmpty = false := by
    cases h : (namesRaw txt).isEmpty
    · rfl
    · exact absurd (partsOf_eq_nil_of_namesRaw txt (by simpa using h)) hne
  have hpe : (partsOf txt).isEmpty = false := by
    cases h : (partsOf txt).isEmpty
    · rfl
    · exact absurd (by simpa using h) hne
  unfold lineStep at hok
  dsimp only at hok
  rw [hnr] at hok
  simp only [Bool.false_eq_true, if_false] at hok
  rw [hpe] at hok
  simp only [Bool.false_eq_true, if_false] at hok
  split at hok
  · exact absurd hok (by simp)
  · cases hok
    obtain ⟨hL, hname, hkind⟩ := segLoop_last (endsSlash txt) (partsOf txt) nm
      ⟨st.nodes, st.stack.drop (st.stack.length - (levelOf txt w + 1)),
        (st.stack.drop (st.stack.length - (levelOf txt w + 1))).headD 0⟩ hlast
    refine ⟨hL, ?_, ?_⟩
    · intro hslash
      rw [hkind, hslash]
      rfl
    · intro hslash hsuf
      rw [hkind, hslash]
      simp [segClass, hsuf]

/-- Claim C6 witness: the line `├── a.py` (dotted name, no trailing
separator) appends a file node. -/
theorem claim_c6_witness :
    lineStep 4 ⟨[⟨"root", true, none, []⟩], [0]⟩ (2, "├── a.py".data) =
      .ok ⟨[⟨"root", true, none, [1]⟩, ⟨"a.py", false, some 0, []⟩], [0]⟩ ∧
    (getNode [⟨"root", true, none, [1]⟩, ⟨"a.py", false, some 0, []⟩] (2 - 1)).isDir =
      false :=
  ⟨rfl,
   (claim_c6 4 ⟨[⟨"root", true, none, []⟩], [0]⟩
     ⟨[⟨"root", true, none, [1]⟩, ⟨"a.py", false, some 0, []⟩], [0]⟩ 2
     ("├── a.py".data) rfl (by decide) "a.py" rfl).2.2 rfl rfl⟩

/-- Claim C7: a node whose root-relative path matches an exclusion
pattern only increments the skip counter — no creation action of its own —
and when the node is a directory the traversal still recurses into every
child, attempting each child's creation at its computed path beneath the
excluded directory. -/
theorem claim_c7 (cfg : Creator) (name : String) (cs : PForest)
    (base rel : List String) (st : MState)
    (h : matchesExclude cfg.excl (rel ++ [name]) = true) :
    recurseNode cfg (PNode.dir name cs) base rel st =
      recChildren cfg cs (base ++ [name]) (rel ++ [name])
        ⟨st.fs, st.dirsCreated, st.filesCreated, st.skipped + 1, st.actions⟩ ∧
    recurseNode cfg (PNode.file name) base rel st =
      .ok ⟨st.fs, st.dirsCreated, st.filesCreated, st.skipped + 1, st.actions⟩ := by
  constructor
  · simp [recurseNode, createDir, h]
  · simp [recurseNode, createFile, h]

/-- Claim C7 witness: the exclusion equation evaluated at a concrete
excluded directory with one child. -/
theorem claim_c7_witness :
    matchesExclude [fun s => s == "r/x"] (["r"] ++ ["x"]) = true ∧
    recurseNode ⟨false, false, fun _ => none, [fun s => s == "r/x"]⟩
        (PNode.dir "x" (ofList [PNode.file "y.py"])) ["r"] ["r"] ⟨[], 0, 0, 0, []⟩ =
      recChildren ⟨false, false, fun _ => none, [fun s => s == "r/x"]⟩
        (ofList [PNode.file "y.py"]) (["r"] ++ ["x"]) (["r"] ++ ["x"])
        ⟨[], 0, 0, 0 + 1, []⟩ :=
  ⟨rfl, (claim_c7 ⟨false, false, fun _ => none, [fun s => s == "r/x"]⟩ "x"
    (ofList [PNode.file "y.py"]) ["r"] ["r"] ⟨[], 0, 0, 0, []⟩ rfl).1⟩

/-- Claim C8: with confirmation required and not a dry run, absent input
cancels and any non-affirmative answer aborts, each with the state
untouched and exit status 1; a dry run never consults the response at
all. -/
theorem claim_c8 (cfg : Creator) (root : PNode) (st0 : MState) :
    (cfg.confirm = true → cfg.dryRun = false →
      (executeM cfg none root st0 = .error (RunErr.cancelled, st0) ∧
        exitCodeOf (executeM cfg none root st0) = 1) ∧
      ∀ s : String, normAns s ≠ "y" →
        executeM cfg (some s) root st0 = .error (RunErr.aborted, st0) ∧
        exitCodeOf (executeM cfg (some s) root st0) = 1) ∧
    (cfg.dryRun = true →
      ∀ r1 r2 : Option String, executeM cfg r1 root st0 = executeM cfg r2 root st0) := by
  constructor
  · intro hc hd
    constructor
    · simp [executeM, hc, hd, exitCodeOf]
    · intro s hs
      simp [executeM, hc, hd, hs, exitCodeOf]
  · intro hd r1 r2
    simp [executeM, hd]

/-- Claim C8 witness: a concrete non-affirmative answer aborts with the
initial state intact. -/
theorem claim_c8_witness :
    normAns "no" ≠ "y" ∧
    executeM ⟨false, true, fun _ => none, []⟩ (some "no") (PNode.file "a")
        ⟨[], 0, 0, 0, []⟩ =
      .error (RunErr.aborted, ⟨[], 0, 0, 0, []⟩) :=
  ⟨by decide,
   (((claim_c8 ⟨false, true, fun _ => none, []⟩ (PNode.file "a")
      ⟨[], 0, 0, 0, []⟩).1 rfl rfl).2 "no" (by decide)).1⟩

end MakeProject
